import Mathlib

/-!
# mstring: a verification development

Shallow embedding of `src/mstring.c` (with the configuration macros of
`src/include/mstring.h`) and theorems about it.

* `size_t` values are natural numbers reduced modulo `2 ^ bits`, where `bits`
  is fixed by the `ARCH_BITS_*` macro the header selects.
* A `char` is read as an `unsigned char`, a value below 256.
* A `char *` is `NULL`, a pointer to a live heap object (its address and its
  bytes), or a pointer whose object has been deallocated.
* The C allocator is an environment: each call to `malloc` / `realloc` is given
  the answer of the allocator as an explicit argument.
* Undefined behaviour (reading past the end of an object, using a pointer to a
  deallocated object) is the result `none`.
-/

namespace MString

/-! ## Configuration (`mstring.h`) -/

/-- The three outcomes of the `SIZE_MAX` test in `mstring.h`. -/
inductive Arch where
  | ARCH_BITS_16
  | ARCH_BITS_32
  | ARCH_BITS_64
  deriving DecidableEq, Repr

/-- Width in bits of `size_t` for each architecture macro. -/
def Arch.bits : Arch → Nat
  | .ARCH_BITS_16 => 16
  | .ARCH_BITS_32 => 32
  | .ARCH_BITS_64 => 64

/-- The number of `size_t` values, `SIZE_MAX + 1`. -/
def Arch.modulus (arch : Arch) : Nat := 2 ^ arch.bits

/-- Macro `INITIAL_CAPACITY`. -/
def INITIAL_CAPACITY : Nat := 1

/-! ## Capacity rounding -/

/-- Function `new_size` of `mstring.c`: decrement, smear the highest set bit to
the right, increment; `--sz` and `++sz` wrap modulo `2 ^ bits`. The shifts by 16
and by 32 are the ones the preprocessor keeps for the architecture. -/
def new_size (arch : Arch) (sz : Nat) : Nat :=
  let sz := (sz + arch.modulus - 1) % arch.modulus
  let sz := sz ||| (sz >>> 1)
  let sz := sz ||| (sz >>> 2)
  let sz := sz ||| (sz >>> 4)
  let sz := sz ||| (sz >>> 8)
  let sz :=
    match arch with
    | .ARCH_BITS_16 => sz
    | .ARCH_BITS_32 => sz ||| (sz >>> 16)
    | .ARCH_BITS_64 =>
      let sz := sz ||| (sz >>> 16)
      sz ||| (sz >>> 32)
  (sz + 1) % arch.modulus

/-! ## Memory and the allocator -/

/-- A `char` read as `unsigned char`. -/
abbrev Byte := Fin 256

/-- A value of type `char *`: `NULL`, a pointer to a live heap object (its
address and the bytes it holds, one per `char`), or a pointer whose object has
been deallocated. -/
inductive CharPtr where
  | null
  | live (addr : Nat) (bytes : List Byte)
  | dangling (addr : Nat)
  deriving DecidableEq, Repr

/-- Number of bytes that may be accessed through a pointer. -/
def CharPtr.addressable : CharPtr → Nat
  | .live _ bytes => bytes.length
  | _ => 0

/-- The byte read by `p[i]`; `none` when the access is outside a live object. -/
def CharPtr.read : CharPtr → Nat → Option Byte
  | .live _ bytes, i => bytes[i]?
  | _, _ => none

/-- Structure `mstring_t` of `mstring.c`. -/
structure mstring_t where
  buffer : CharPtr
  size : Nat
  capacity : Nat
  deriving DecidableEq, Repr

/-- Type `mstring` of `mstring.h`, a pointer to `struct mstring_t`; `none` is
the `NULL` handle. -/
abbrev mstring := Option mstring_t

/-- What the C allocator answers to one call.
* `fail`: the call returns `NULL` and deallocates nothing.
* `zeroFreed`: a `realloc` of size zero returns `NULL` after deallocating the
  old object, which the C standard lets an implementation do; for every other
  call it is the same answer as `fail`.
* `block addr fill`: the call returns a pointer to a new object at `addr`; the
  byte at an offset the call does not initialise is `fill offset`. -/
inductive AllocAnswer where
  | fail
  | zeroFreed
  | block (addr : Nat) (fill : Nat → Byte)

/-- Library function `malloc`, given the answer of the allocator. -/
def malloc (size : Nat) : AllocAnswer → CharPtr
  | .block addr fill => .live addr ((List.range size).map fill)
  | _ => .null

/-- Library function `realloc`, given the answer of the allocator. The result is
the returned pointer paired with the state of the argument pointer after the
call; it is `none` (undefined behaviour) when the argument points to a
deallocated object. A null argument makes the call a `malloc`. A new object
keeps the old bytes up to the smaller of the two sizes. -/
def realloc (ptr : CharPtr) (size : Nat) (ans : AllocAnswer) : Option (CharPtr × CharPtr) :=
  match ptr with
  | .dangling _ => none
  | .null => some (malloc size ans, .null)
  | .live addr old =>
    match ans with
    | .fail => some (.null, .live addr old)
    | .zeroFreed =>
      if size = 0 then some (.null, .dangling addr) else some (.null, .live addr old)
    | .block addr' fill =>
      let bytes := old.take size ++ (List.range (size - old.length)).map (fun i => fill (old.length + i))
      some (.live addr' bytes, if addr' = addr then .live addr' bytes else .dangling addr)

/-- Value of `sizeof(char)`. -/
def sizeof_char : Nat := 1

/-- Value of `sizeof(struct mstring_t)`: a pointer and two `size_t`, each as
wide as `size_t`. It only sizes the handle allocation. -/
def sizeof_mstring_t (arch : Arch) : Nat := 3 * (arch.bits / 8)

/-- Function `error_handler` of `mstring.c`, whose body is empty. -/
def error_handler (str : mstring_t) : mstring_t := str

/-- Function `reallocate` of `mstring.c`, called on a non-null handle. Only the
`buffer` field is ever assigned, and only when `realloc` returns non-null;
`sizeof(char) * new_sz` cannot wrap because `sizeof(char)` is 1. -/
def reallocate (arch : Arch) (str : mstring_t) (new_sz : Nat) (ans : AllocAnswer) :
    Option mstring_t :=
  let new_sz := new_size arch new_sz
  match realloc str.buffer (sizeof_char * new_sz) ans with
  | none => none
  | some (tmp, old) =>
    if tmp ≠ .null then some (error_handler { str with buffer := tmp })
    else some (error_handler { str with buffer := old })

/-! ## Construction -/

/-- Function `mstr_construct` of `mstring.c`; `hAns` answers the allocation of
the handle, `bAns` the allocation of the storage. -/
def mstr_construct (arch : Arch) (hAns bAns : AllocAnswer) : mstring :=
  match malloc (sizeof_mstring_t arch) hAns with
  | .live _ _ =>
    match malloc (sizeof_char * INITIAL_CAPACITY) bAns with
    | .live addr bytes =>
      some { buffer := .live addr (bytes.set 0 0), size := 0, capacity := INITIAL_CAPACITY }
    | _ => none
  | _ => none

/-- Library function `strlen` on the array a pointer points into: the index of
the first zero byte; `none` when the scan leaves the array. -/
def strlen : List Byte → Option Nat
  | [] => none
  | c :: cs => if c = 0 then some 0 else (strlen cs).map (· + 1)

/-- Library function `memcpy` of `n` bytes from `src` to the start of `dst`;
`none` when `n` exceeds either object. -/
def memcpy (dst src : List Byte) (n : Nat) : Option (List Byte) :=
  if n ≤ dst.length ∧ n ≤ src.length then some (src.take n ++ dst.drop n) else none

/-- Function `mstr_construct_init` of `mstring.c`; `init` is the array the
argument points into. The outer `none` is undefined behaviour, the inner `none`
the `NULL` handle. `len + 1` cannot wrap, since `init` holds `len + 1` bytes. -/
def mstr_construct_init (arch : Arch) (hAns bAns : AllocAnswer) (init : List Byte) :
    Option mstring :=
  match malloc (sizeof_mstring_t arch) hAns with
  | .live _ _ =>
    match strlen init with
    | none => none
    | some len =>
      let cap := len + 1
      match malloc (sizeof_char * cap) bAns with
      | .live addr bytes =>
        match memcpy bytes init (cap * sizeof_char) with
        | none => none
        | some bytes' => some (some { buffer := .live addr bytes', size := len, capacity := cap })
      | _ => some none
  | _ => some none

/-! ## Comparison -/

/-- Library function `strcmp` on the arrays the two pointers point into: at the
first position where the bytes differ, their difference as `unsigned char`;
zero when a zero byte is reached on both sides first; `none` when the scan
leaves either array. -/
def strcmp : List Byte → List Byte → Option Int
  | l :: ls, r :: rs =>
    if l = r then (if l = 0 then some 0 else strcmp ls rs)
    else some ((l.val : Int) - (r.val : Int))
  | _, _ => none

/-- Library function `strcmp` on pointers; both must point to live objects. -/
def CharPtr.strcmp : CharPtr → CharPtr → Option Int
  | .live _ l, .live _ r => MString.strcmp l r
  | _, _ => none

/-- Function `mstr_compare` of `mstring.c`. -/
def mstr_compare (lhs rhs : mstring) : Option Int :=
  match lhs, rhs with
  | some l, some r => CharPtr.strcmp l.buffer r.buffer
  | _, _ => some 0

/-! ## Predicates used in the statements -/

/-- The storage of a pointer is a live object that holds a zero byte. -/
def CharPtr.Terminated : CharPtr → Prop
  | .live _ bytes => (0 : Byte) ∈ bytes
  | _ => False

instance (p : CharPtr) : Decidable p.Terminated := by
  cases p <;> simp only [CharPtr.Terminated] <;> infer_instance

/-- A byte sequence without a zero byte. -/
def ZeroFree (s : List Byte) : Prop := ∀ c ∈ s, c ≠ 0

instance (s : List Byte) : Decidable (ZeroFree s) := by
  unfold ZeroFree; infer_instance

/-- The bit of `x` at position `i` is the disjunction of the bits of `m` at
positions `i`, ..., `i + w - 1`: the state of the bit smearing of `new_size`
after the shifts by 1, 2, ..., `w / 2`. -/
def Smeared (w x m : Nat) : Prop :=
  ∀ i, x.testBit i = true ↔ ∃ j, j < w ∧ m.testBit (i + j) = true

/-- The number `p` is the least power of two that is at least `n`. -/
def IsLeastPowerOfTwoGE (n p : Nat) : Prop :=
  (∃ k, p = 2 ^ k) ∧ n ≤ p ∧ ∀ k, n ≤ 2 ^ k → p ≤ 2 ^ k

/-! ## Bit smearing -/

theorem smeared_base (m : Nat) : Smeared 1 m m := by
  intro i
  constructor
  · intro h
    exact ⟨0, Nat.one_pos, by simpa using h⟩
  · rintro ⟨j, hj, h⟩
    have : j = 0 := by omega
    subst this
    simpa using h

theorem smeared_step {w x m : Nat} (h : Smeared w x m) :
    Smeared (w + w) (x ||| (x >>> w)) m := by
  intro i
  rw [Nat.testBit_or, Nat.testBit_shiftRight, Bool.or_eq_true, h i, h (w + i)]
  constructor
  · rintro (⟨j, hj, hb⟩ | ⟨j, hj, hb⟩)
    · exact ⟨j, by omega, hb⟩
    · refine ⟨w + j, by omega, ?_⟩
      have e : i + (w + j) = w + i + j := by omega
      rw [e]
      exact hb
  · rintro ⟨j, hj, hb⟩
    by_cases hjw : j < w
    · exact Or.inl ⟨j, hjw, hb⟩
    · refine Or.inr ⟨j - w, by omega, ?_⟩
      have e : w + i + (j - w) = i + j := by omega
      rw [e]
      exact hb

theorem smeared_zero {w x : Nat} (h : Smeared w x 0) : x = 0 := by
  apply Nat.eq_of_testBit_eq
  intro i
  have hi := h i
  simp only [Nat.zero_testBit, Bool.false_eq_true, and_false, exists_false, iff_false] at hi
  simpa using hi

theorem testBit_log2 {m : Nat} (hm : m ≠ 0) : m.testBit m.log2 = true := by
  obtain ⟨i, hi, hb⟩ := Nat.ge_two_pow_implies_high_bit_true (Nat.log2_self_le hm)
  have h1 : 2 ^ i ≤ m := Nat.testBit_implies_ge hb
  have h2 : m < 2 ^ (m.log2 + 1) := Nat.lt_log2_self
  have h3 : i < m.log2 + 1 := (Nat.pow_lt_pow_iff_right (by decide)).1 (lt_of_le_of_lt h1 h2)
  have : i = m.log2 := by omega
  rw [← this]
  exact hb

theorem smeared_eq {w x m : Nat} (h : Smeared w x m) (hm : m ≠ 0) (hw : m.log2 < w) :
    x = 2 ^ (m.log2 + 1) - 1 := by
  apply Nat.eq_of_testBit_eq
  intro i
  rw [Nat.testBit_two_pow_sub_one]
  by_cases hi : i < m.log2 + 1
  · rw [decide_eq_true hi, h i]
    refine ⟨m.log2 - i, by omega, ?_⟩
    have e : i + (m.log2 - i) = m.log2 := by omega
    rw [e]
    exact testBit_log2 hm
  · rw [decide_eq_false hi]
    cases hb : x.testBit i with
    | false => rfl
    | true =>
      obtain ⟨j, _, hj⟩ := (h i).1 hb
      have h1 : 2 ^ (i + j) ≤ m := Nat.testBit_implies_ge hj
      have h2 : m < 2 ^ (m.log2 + 1) := Nat.lt_log2_self
      have h3 : i + j < m.log2 + 1 :=
        (Nat.pow_lt_pow_iff_right (by decide)).1 (lt_of_le_of_lt h1 h2)
      omega

/-- The six smearing steps of the 64-bit build leave all bits below the highest
set bit of `m` set. -/
theorem smear64 (m : Nat) :
    Smeared 64 (((((((m ||| (m >>> 1)) ||| ((m ||| (m >>> 1)) >>> 2)) |||
      (((m ||| (m >>> 1)) ||| ((m ||| (m >>> 1)) >>> 2)) >>> 4)) |||
      ((((m ||| (m >>> 1)) ||| ((m ||| (m >>> 1)) >>> 2)) |||
      (((m ||| (m >>> 1)) ||| ((m ||| (m >>> 1)) >>> 2)) >>> 4)) >>> 8)) |||
      (((((m ||| (m >>> 1)) ||| ((m ||| (m >>> 1)) >>> 2)) |||
      (((m ||| (m >>> 1)) ||| ((m ||| (m >>> 1)) >>> 2)) >>> 4)) |||
      ((((m ||| (m >>> 1)) ||| ((m ||| (m >>> 1)) >>> 2)) |||
      (((m ||| (m >>> 1)) ||| ((m ||| (m >>> 1)) >>> 2)) >>> 4)) >>> 8)) >>> 16)) |||
      ((((((m ||| (m >>> 1)) ||| ((m ||| (m >>> 1)) >>> 2)) |||
      (((m ||| (m >>> 1)) ||| ((m ||| (m >>> 1)) >>> 2)) >>> 4)) |||
      ((((m ||| (m >>> 1)) ||| ((m ||| (m >>> 1)) >>> 2)) |||
      (((m ||| (m >>> 1)) ||| ((m ||| (m >>> 1)) >>> 2)) >>> 4)) >>> 8)) |||
      (((((m ||| (m >>> 1)) ||| ((m ||| (m >>> 1)) >>> 2)) |||
      (((m ||| (m >>> 1)) ||| ((m ||| (m >>> 1)) >>> 2)) >>> 4)) |||
      ((((m ||| (m >>> 1)) ||| ((m ||| (m >>> 1)) >>> 2)) |||
      (((m ||| (m >>> 1)) ||| ((m ||| (m >>> 1)) >>> 2)) >>> 4)) >>> 8)) >>> 16)) >>> 32))) m := by
  have h1 := smeared_base m
  have h2 : Smeared 2 _ m := smeared_step h1
  have h4 : Smeared 4 _ m := smeared_step h2
  have h8 : Smeared 8 _ m := smeared_step h4
  have h16 : Smeared 16 _ m := smeared_step h8
  have h32 : Smeared 32 _ m := smeared_step h16
  have h64 : Smeared 64 _ m := smeared_step h32
  exact h64

theorem new_size_64_eq (n : Nat) :
    new_size .ARCH_BITS_64 n =
      if (n + 2 ^ 64 - 1) % 2 ^ 64 = 0 then 1
      else 2 ^ (((n + 2 ^ 64 - 1) % 2 ^ 64).log2 + 1) % 2 ^ 64 := by
  have hm : (n + 2 ^ 64 - 1) % 2 ^ 64 < 2 ^ 64 := Nat.mod_lt _ (by positivity)
  generalize hmdef : (n + 2 ^ 64 - 1) % 2 ^ 64 = m at hm
  have hs := smear64 m
  simp only [new_size, Arch.modulus, Arch.bits, hmdef]
  split
  · next h0 =>
    subst h0
    rw [smeared_zero hs]
    decide
  · next h0 =>
    have hlog : m.log2 < 64 := (Nat.log2_lt h0).2 hm
    rw [smeared_eq hs h0 hlog]
    have : 0 < 2 ^ (m.log2 + 1) := by positivity
    rw [Nat.sub_add_cancel this]

/-! ## Capacity rounding: `new_size` -/

theorem new_size_64_isLeast (n : Nat) (h1 : 1 ≤ n) (h2 : n ≤ 2 ^ 63) :
    IsLeastPowerOfTwoGE n (new_size .ARCH_BITS_64 n) := by
  rw [new_size_64_eq]
  have hm : (n + 2 ^ 64 - 1) % 2 ^ 64 = n - 1 := by
    have e : n + 2 ^ 64 - 1 = (n - 1) + 2 ^ 64 := by omega
    rw [e, Nat.add_mod_right, Nat.mod_eq_of_lt (by omega)]
  rw [hm]
  split
  · next h0 =>
    have hn : n = 1 := by omega
    subst hn
    exact ⟨⟨0, rfl⟩, le_refl 1, fun k _ => Nat.one_le_two_pow⟩
  · next h0 =>
    have hlt : n - 1 < 2 ^ 63 := by omega
    have hlog : (n - 1).log2 < 63 := (Nat.log2_lt h0).2 hlt
    have hle : 2 ^ ((n - 1).log2 + 1) ≤ 2 ^ 63 :=
      Nat.pow_le_pow_right (by decide) (by omega)
    have hup : n - 1 < 2 ^ ((n - 1).log2 + 1) := Nat.lt_log2_self
    rw [Nat.mod_eq_of_lt (by omega)]
    refine ⟨⟨_, rfl⟩, by omega, ?_⟩
    intro k hk
    have hk1 : (n - 1).log2 < k := (Nat.log2_lt h0).2 (by omega)
    exact Nat.pow_le_pow_right (by decide) (by omega)

/-- C1. On a 64-bit build, for every `n` with `1 ≤ n ≤ 2 ^ 63` the value
`new_size n` is the least power of two that is at least `n`; in particular
`new_size 5 = 8` and `new_size 8 = 8`. -/
theorem new_size_least_power_of_two (n : Nat) (h1 : 1 ≤ n) (h2 : n ≤ 2 ^ 63) :
    IsLeastPowerOfTwoGE n (new_size .ARCH_BITS_64 n) ∧
      new_size .ARCH_BITS_64 5 = 8 ∧ new_size .ARCH_BITS_64 8 = 8 :=
  ⟨new_size_64_isLeast n h1 h2, by decide, by decide⟩

/-- Witness of C1 at `n = 5`. -/
theorem new_size_least_power_of_two_witness :
    (1 ≤ 5 ∧ 5 ≤ 2 ^ 63) ∧ IsLeastPowerOfTwoGE 5 (new_size .ARCH_BITS_64 5) :=
  ⟨by decide, (new_size_least_power_of_two 5 (by decide) (by decide)).1⟩

/-! ## Library functions on byte arrays -/

theorem malloc_block (n addr : Nat) (fill : Nat → Byte) :
    malloc n (.block addr fill) = .live addr ((List.range n).map fill) := rfl

theorem strlen_lt_length {l : List Byte} {k : Nat} (h : strlen l = some k) : k < l.length := by
  induction l generalizing k with
  | nil => simp [strlen] at h
  | cons c cs ih =>
    simp only [strlen] at h
    split at h
    · simp only [Option.some.injEq] at h
      subst h
      simp
    · cases hc : strlen cs with
      | none => simp [hc] at h
      | some j =>
        simp only [hc, Option.map_some', Option.some.injEq] at h
        subst h
        have := ih hc
        simp only [List.length_cons]
        omega

theorem strlen_append_zero {s : List Byte} (hs : ZeroFree s) (rest : List Byte) :
    strlen (s ++ 0 :: rest) = some s.length := by
  induction s with
  | nil => simp [strlen]
  | cons c cs ih =>
    have hc : c ≠ 0 := hs c (List.mem_cons_self _ _)
    have hcs : ZeroFree cs := fun x hx => hs x (List.mem_cons_of_mem _ hx)
    simp [strlen, hc, ih hcs]

/-! ## Construction -/

/-- When both allocations succeed and `init` has its first zero byte at index
`k`, `mstr_construct_init` returns the buffer of size `k` and capacity `k + 1`
whose storage is the first `k + 1` bytes of `init`. -/
theorem mstr_construct_init_eq (arch : Arch) (ha ba : Nat) (hf bf : Nat → Byte)
    (init : List Byte) (k : Nat) (hk : strlen init = some k) :
    mstr_construct_init arch (.block ha hf) (.block ba bf) init =
      some (some { buffer := .live ba (init.take (k + 1)), size := k, capacity := k + 1 }) := by
  have hlen := strlen_lt_length hk
  simp only [mstr_construct_init, malloc_block, hk, memcpy, sizeof_char, Nat.one_mul, Nat.mul_one,
    List.length_map, List.length_range, le_refl, true_and]
  rw [if_pos (by omega)]
  simp

/-- C3. When both allocations succeed, `mstr_construct` returns a buffer with
size 0, capacity 1 (`INITIAL_CAPACITY`) and a zero byte at offset 0 of its
storage, so that `capacity ≥ size + 1`. -/
theorem mstr_construct_fresh (arch : Arch) (ha ba : Nat) (hf bf : Nat → Byte) :
    ∃ str, mstr_construct arch (.block ha hf) (.block ba bf) = some str ∧
      str.size = 0 ∧ str.capacity = 1 ∧ INITIAL_CAPACITY = 1 ∧
      str.buffer.read 0 = some 0 ∧ str.buffer.addressable = 1 ∧
      str.capacity ≥ str.size + 1 := by
  refine ⟨{ buffer := .live ba [0], size := 0, capacity := 1 }, ?_, rfl, rfl, rfl, rfl, rfl, ?_⟩
  · simp [mstr_construct, malloc_block, sizeof_char, INITIAL_CAPACITY, List.range_succ]
  · simp

/-- C2 fails for a sequence with a zero byte: from `[1, 0, 2]` followed by its
terminator the constructed buffer has size 1 and capacity 2, not 3 and 4. -/
theorem mstr_construct_init_embedded_zero :
    mstr_construct_init .ARCH_BITS_64 (.block 1 (fun _ => 0)) (.block 2 (fun _ => 0))
        (([1, 0, 2] : List Byte) ++ [0]) =
      some (some { buffer := .live 2 [1, 0], size := 1, capacity := 2 }) ∧
    ([1, 0, 2] : List Byte).length = 3 := by
  decide

/-- C2, amended. For every byte sequence `s` without a zero byte, passed followed
by its terminator, when both allocations succeed the returned buffer has size
`len s`, capacity `len s + 1`, its first `len s` bytes are `s` and the byte at
offset `len s` is 0. -/
theorem mstr_construct_init_copy (arch : Arch) (ha ba : Nat) (hf bf : Nat → Byte)
    (s : List Byte) (hs : ZeroFree s) :
    ∃ bytes, mstr_construct_init arch (.block ha hf) (.block ba bf) (s ++ [0]) =
        some (some { buffer := .live ba bytes, size := s.length, capacity := s.length + 1 }) ∧
      bytes.take s.length = s ∧ bytes[s.length]? = some 0 := by
  refine ⟨s ++ [0], ?_, by simp, by simp⟩
  rw [mstr_construct_init_eq arch ha ba hf bf (s ++ [0]) s.length (strlen_append_zero hs [])]
  simp [List.take_append_eq_append_take]

/-- Witness of the amended C2 at the sequence `[104, 105]`. -/
theorem mstr_construct_init_copy_witness :
    ZeroFree [104, 105] ∧
    ∃ bytes, mstr_construct_init .ARCH_BITS_64 (.block 1 (fun _ => 0)) (.block 2 (fun _ => 0))
        ([104, 105] ++ [0]) =
        some (some { buffer := .live 2 bytes, size := 2, capacity := 3 }) ∧
      bytes.take 2 = [104, 105] ∧ bytes[2]? = some 0 :=
  ⟨by simp [ZeroFree], mstr_construct_init_copy .ARCH_BITS_64 1 2 (fun _ => 0) (fun _ => 0)
    [104, 105] (by simp [ZeroFree])⟩

/-! ## Comparison -/

theorem lex_cons_ne {a b : Byte} (l₁ l₂ : List Byte) (hab : a ≠ b) :
    List.Lex (· < ·) (a :: l₁) (b :: l₂) ↔ a < b := by
  constructor
  · intro h
    cases h with
    | cons _ => exact absurd rfl hab
    | rel h => exact h
  · intro h
    exact List.Lex.rel h

/-- On two arrays that hold the zero-free sequences `s` and `t`, each followed by
a zero byte, `strcmp` returns a value whose sign is the lexicographic order of
`s` and `t`, bytes being compared as unsigned values. -/
theorem strcmp_spec (s : List Byte) : ∀ (t x y : List Byte), ZeroFree s → ZeroFree t →
    ∃ r, strcmp (s ++ 0 :: x) (t ++ 0 :: y) = some r ∧
      (r < 0 ↔ List.Lex (· < ·) s t) ∧ (r = 0 ↔ s = t) ∧ (0 < r ↔ List.Lex (· < ·) t s) := by
  induction s with
  | nil =>
    intro t x y _ ht
    cases t with
    | nil =>
      refine ⟨0, by simp [strcmp], ?_, by simp, ?_⟩ <;>
        simp [List.Lex.not_nil_right]
    | cons b t =>
      have hb : b ≠ 0 := ht b (List.mem_cons_self _ _)
      have hb0 : (0 : Byte) ≠ b := fun h => hb h.symm
      have hpos : 0 < b.val := Nat.pos_of_ne_zero (fun h => hb (Fin.ext h))
      refine ⟨((0 : Byte).val : Int) - (b.val : Int), by simp [strcmp, hb0], ?_, ?_, ?_⟩
      · simp only [Fin.val_zero, Nat.cast_zero, zero_sub]
        constructor
        · intro _; exact List.Lex.nil
        · intro _; omega
      · simp only [Fin.val_zero, Nat.cast_zero, zero_sub]
        constructor
        · intro h; omega
        · intro h; cases h
      · simp only [Fin.val_zero, Nat.cast_zero, zero_sub]
        constructor
        · intro h; omega
        · intro h; exact absurd h (List.Lex.not_nil_right _ _)
  | cons a s ih =>
    intro t x y hs ht
    have ha : a ≠ 0 := hs a (List.mem_cons_self _ _)
    have hs1 : ZeroFree s := fun c hc => hs c (List.mem_cons_of_mem _ hc)
    cases t with
    | nil =>
      have hpos : 0 < a.val := Nat.pos_of_ne_zero (fun h => ha (Fin.ext h))
      refine ⟨(a.val : Int) - ((0 : Byte).val : Int), by simp [strcmp, ha], ?_, ?_, ?_⟩
      · simp only [Fin.val_zero, Nat.cast_zero, sub_zero]
        constructor
        · intro h; omega
        · intro h; exact absurd h (List.Lex.not_nil_right _ _)
      · simp only [Fin.val_zero, Nat.cast_zero, sub_zero]
        constructor
        · intro h; omega
        · intro h; cases h
      · simp only [Fin.val_zero, Nat.cast_zero, sub_zero]
        constructor
        · intro _; exact List.Lex.nil
        · intro _; omega
    | cons b t =>
      have ht1 : ZeroFree t := fun c hc => ht c (List.mem_cons_of_mem _ hc)
      by_cases hab : a = b
      · subst hab
        obtain ⟨r, hr, h1, h2, h3⟩ := ih t x y hs1 ht1
        refine ⟨r, by simp [strcmp, ha, hr], ?_, ?_, ?_⟩
        · rw [h1]; exact List.Lex.cons_iff.symm
        · rw [h2]; simp
        · rw [h3]; exact List.Lex.cons_iff.symm
      · have hba : b ≠ a := fun h => hab h.symm
        have hv : a.val ≠ b.val := fun h => hab (Fin.ext h)
        refine ⟨(a.val : Int) - (b.val : Int), by simp [strcmp, hab], ?_, ?_, ?_⟩
        · rw [lex_cons_ne _ _ hab, Fin.lt_def]; omega
        · constructor
          · intro h; omega
          · intro h; exact absurd (List.cons.inj h).1 hab
        · rw [lex_cons_ne _ _ hba, Fin.lt_def]; omega

theorem strcmp_swap (l : List Byte) : ∀ r : List Byte,
    (strcmp l r).map Int.sign = (strcmp r l).map (fun v => - Int.sign v) := by
  induction l with
  | nil =>
    intro r
    cases r <;> simp [strcmp]
  | cons a l ih =>
    intro r
    cases r with
    | nil => simp [strcmp]
    | cons b r =>
      by_cases hab : a = b
      · subst hab
        by_cases ha : a = 0
        · simp [strcmp, ha]
        · simpa [strcmp, ha] using ih r
      · have hba : ¬ b = a := fun h => hab h.symm
        simp only [strcmp, hab, hba, if_false, Option.map_some', Option.some.injEq]
        rw [← Int.sign_neg, neg_sub]

theorem strcmp_defined (l : List Byte) : ∀ r : List Byte, (0 : Byte) ∈ l → (0 : Byte) ∈ r →
    ∃ v, strcmp l r = some v := by
  induction l with
  | nil => intro r h; simp at h
  | cons a l ih =>
    intro r hl hr
    cases r with
    | nil => simp at hr
    | cons b r =>
      by_cases hab : a = b
      · subst hab
        by_cases ha : a = 0
        · exact ⟨0, by simp [strcmp, ha]⟩
        · have ha0 : ¬ (0 : Byte) = a := fun h => ha h.symm
          have hl1 : (0 : Byte) ∈ l := by simpa [ha0] using hl
          have hr1 : (0 : Byte) ∈ r := by simpa [ha0] using hr
          obtain ⟨v, hv⟩ := ih r hl1 hr1
          exact ⟨v, by simp [strcmp, ha, hv]⟩
      · exact ⟨(a.val : Int) - (b.val : Int), by simp [strcmp, hab]⟩

/-- An array with a zero byte at index `n` and none before it is its first `n`
bytes, which are zero-free, followed by the zero byte and the rest. -/
theorem split_at_terminator (l : List Byte) (n : Nat) (h0 : l[n]? = some 0)
    (hz : ∀ i, i < n → l[i]? ≠ some 0) :
    ZeroFree (l.take n) ∧ l = l.take n ++ 0 :: l.drop (n + 1) ∧ (l.take n).length = n := by
  obtain ⟨hn, hln⟩ := List.getElem?_eq_some.1 h0
  refine ⟨?_, ?_, ?_⟩
  · intro c hc hc0
    subst hc0
    obtain ⟨i, hi⟩ := List.mem_iff_getElem?.1 hc
    rw [List.getElem?_take] at hi
    split at hi
    · next hlt => exact hz i hlt hi
    · cases hi
  · rw [← hln, ← List.drop_eq_getElem_cons hn, List.take_append_drop]
  · rw [List.length_take]
    omega

/-- On two non-null buffers whose storage has its first zero byte at offset
`size`, `mstr_compare` returns a value whose sign is the lexicographic order of
the two contents (the bytes below `size`). -/
theorem mstr_compare_terminated (a b : mstring_t) (as bs : List Byte) (pa pb : Nat)
    (hpa : a.buffer = .live pa as) (hpb : b.buffer = .live pb bs)
    (ha : as[a.size]? = some 0) (hb : bs[b.size]? = some 0)
    (hza : ∀ i, i < a.size → as[i]? ≠ some 0) (hzb : ∀ i, i < b.size → bs[i]? ≠ some 0) :
    ∃ r, mstr_compare (some a) (some b) = some r ∧
      (r < 0 ↔ List.Lex (· < ·) (as.take a.size) (bs.take b.size)) ∧
      (r = 0 ↔ as.take a.size = bs.take b.size) ∧
      (0 < r ↔ List.Lex (· < ·) (bs.take b.size) (as.take a.size)) := by
  obtain ⟨za, ea, _⟩ := split_at_terminator as a.size ha hza
  obtain ⟨zb, eb, _⟩ := split_at_terminator bs b.size hb hzb
  obtain ⟨r, hr, h⟩ := strcmp_spec (as.take a.size) (bs.take b.size)
    (as.drop (a.size + 1)) (bs.drop (b.size + 1)) za zb
  refine ⟨r, ?_, h⟩
  simp only [mstr_compare, hpa, hpb, CharPtr.strcmp]
  rw [← ea, ← eb] at hr
  exact hr

theorem take_eq_take_iff (as bs : List Byte) (n m : Nat) (hn : n ≤ as.length)
    (hm : m ≤ bs.length) :
    as.take n = bs.take m ↔ n = m ∧ ∀ i, i < n → as[i]? = bs[i]? := by
  constructor
  · intro h
    have hl := congrArg List.length h
    rw [List.length_take, List.length_take] at hl
    have hnm : n = m := by omega
    refine ⟨hnm, ?_⟩
    intro i hi
    have hi2 : i < m := by omega
    have e1 : (as.take n)[i]? = as[i]? := List.getElem?_take_of_lt hi
    have e2 : (bs.take m)[i]? = bs[i]? := List.getElem?_take_of_lt hi2
    rw [← e1, ← e2, h]
  · rintro ⟨rfl, h⟩
    apply List.ext_getElem?
    intro i
    rw [List.getElem?_take, List.getElem?_take]
    split
    · next hi => exact h i hi
    · rfl

/-- C4 fails for buffers with a zero byte below `size`: the storages
`[97, 0, 98, 0]` and `[97, 0, 99, 0]`, both of size 3 with the sentinel at
offset 3, compare equal although they differ at offset 2. -/
theorem mstr_compare_embedded_zero :
    mstr_compare (some { buffer := .live 1 [97, 0, 98, 0], size := 3, capacity := 4 })
        (some { buffer := .live 2 [97, 0, 99, 0], size := 3, capacity := 4 }) = some 0 ∧
      (CharPtr.live 1 [97, 0, 98, 0]).read 3 = some 0 ∧
      (CharPtr.live 2 [97, 0, 99, 0]).read 3 = some 0 ∧
      (CharPtr.live 1 [97, 0, 98, 0]).read 2 ≠ (CharPtr.live 2 [97, 0, 99, 0]).read 2 := by
  refine ⟨?_, rfl, rfl, ?_⟩
  · simp [mstr_compare, CharPtr.strcmp, strcmp]
  · simp [CharPtr.read]

/-- C4, amended. For non-null buffers `a` and `b` whose byte at offset `size` is
0 and whose bytes below `size` are all non-zero, `mstr_compare a b` is 0 exactly
when `a` and `b` have the same size and the same byte at every offset below
it. -/
theorem mstr_compare_eq_zero_iff (a b : mstring_t)
    (ha : a.buffer.read a.size = some 0) (hb : b.buffer.read b.size = some 0)
    (hza : ∀ i, i < a.size → a.buffer.read i ≠ some 0)
    (hzb : ∀ i, i < b.size → b.buffer.read i ≠ some 0) :
    mstr_compare (some a) (some b) = some 0 ↔
      a.size = b.size ∧ ∀ i, i < a.size → a.buffer.read i = b.buffer.read i := by
  obtain ⟨pa, sza, ca⟩ := a
  obtain ⟨pb, szb, cb⟩ := b
  cases pa with
  | null => simp [CharPtr.read] at ha
  | dangling _ => simp [CharPtr.read] at ha
  | live aa as =>
    cases pb with
    | null => simp [CharPtr.read] at hb
    | dangling _ => simp [CharPtr.read] at hb
    | live ab bs =>
      simp only [CharPtr.read] at ha hb hza hzb ⊢
      obtain ⟨r, hr, _, h0, _⟩ := mstr_compare_terminated
        ⟨.live aa as, sza, ca⟩ ⟨.live ab bs, szb, cb⟩ as bs aa ab rfl rfl ha hb hza hzb
      have hla : sza ≤ as.length := le_of_lt (List.getElem?_eq_some.1 ha).1
      have hlb : szb ≤ bs.length := le_of_lt (List.getElem?_eq_some.1 hb).1
      rw [hr, Option.some.injEq, h0]
      exact take_eq_take_iff as bs sza szb hla hlb

/-- Witness of the amended C4 at the buffers holding `"hi"` and `"hi"`. -/
theorem mstr_compare_eq_zero_iff_witness :
    mstr_compare (some { buffer := .live 1 [104, 105, 0], size := 2, capacity := 3 })
        (some { buffer := .live 2 [104, 105, 0, 7], size := 2, capacity := 4 }) = some 0 ↔
      (2 : Nat) = 2 ∧ ∀ i, i < 2 →
        (CharPtr.live 1 [104, 105, 0]).read i = (CharPtr.live 2 [104, 105, 0, 7]).read i :=
  mstr_compare_eq_zero_iff
    { buffer := .live 1 [104, 105, 0], size := 2, capacity := 3 }
    { buffer := .live 2 [104, 105, 0, 7], size := 2, capacity := 4 }
    rfl rfl
    (by intro i hi; interval_cases i <;> simp [CharPtr.read])
    (by intro i hi; interval_cases i <;> simp [CharPtr.read])

/-- C5. For zero-free byte sequences `s` and `t`, comparing the buffers
constructed from them gives a negative, zero or positive value exactly as `s` is
lexicographically less than, equal to or greater than `t`, bytes being compared
as unsigned values and a proper initial segment coming before its extensions. -/
theorem mstr_compare_construct_init (arch : Arch) (ha₁ ba₁ ha₂ ba₂ : Nat)
    (hf₁ bf₁ hf₂ bf₂ : Nat → Byte) (s t : List Byte) (hs : ZeroFree s) (ht : ZeroFree t) :
    ∃ a b r,
      mstr_construct_init arch (.block ha₁ hf₁) (.block ba₁ bf₁) (s ++ [0]) = some (some a) ∧
      mstr_construct_init arch (.block ha₂ hf₂) (.block ba₂ bf₂) (t ++ [0]) = some (some b) ∧
      mstr_compare (some a) (some b) = some r ∧
      (r < 0 ↔ List.Lex (· < ·) s t) ∧ (r = 0 ↔ s = t) ∧ (0 < r ↔ List.Lex (· < ·) t s) := by
  obtain ⟨r, hr, h⟩ := strcmp_spec s t [] [] hs ht
  refine ⟨_, _, r,
    mstr_construct_init_eq arch ha₁ ba₁ hf₁ bf₁ (s ++ [0]) s.length (strlen_append_zero hs []),
    mstr_construct_init_eq arch ha₂ ba₂ hf₂ bf₂ (t ++ [0]) t.length (strlen_append_zero ht []),
    ?_, h⟩
  simp only [mstr_compare, CharPtr.strcmp]
  have e1 : (s ++ [0]).take (s.length + 1) = s ++ [0] := by
    apply List.take_of_length_le; simp
  have e2 : (t ++ [0]).take (t.length + 1) = t ++ [0] := by
    apply List.take_of_length_le; simp
  rw [e1, e2]
  exact hr

/-- Witness of C5 at the sequences `"ab"` and `"b"`. -/
theorem mstr_compare_construct_init_witness :
    (ZeroFree [97, 98] ∧ ZeroFree [98]) ∧
    ∃ a b r,
      mstr_construct_init .ARCH_BITS_64 (.block 1 (fun _ => 0)) (.block 2 (fun _ => 0))
        ([97, 98] ++ [0]) = some (some a) ∧
      mstr_construct_init .ARCH_BITS_64 (.block 3 (fun _ => 0)) (.block 4 (fun _ => 0))
        ([98] ++ [0]) = some (some b) ∧
      mstr_compare (some a) (some b) = some r ∧
      (r < 0 ↔ List.Lex (· < ·) ([97, 98] : List Byte) [98]) ∧
      (r = 0 ↔ ([97, 98] : List Byte) = [98]) ∧
      (0 < r ↔ List.Lex (· < ·) ([98] : List Byte) [97, 98]) :=
  ⟨⟨by simp [ZeroFree], by simp [ZeroFree]⟩,
    mstr_compare_construct_init .ARCH_BITS_64 1 2 3 4 (fun _ => 0) (fun _ => 0) (fun _ => 0)
      (fun _ => 0) [97, 98] [98] (by simp [ZeroFree]) (by simp [ZeroFree])⟩

/-- C6. For all handles `a` and `b`, null or not, the sign of `mstr_compare a b`
is the negation of the sign of `mstr_compare b a` (one is undefined exactly when
the other is), and both are defined when every non-null handle has a zero byte
in its storage. -/
theorem mstr_compare_antisymm (a b : mstring) :
    (mstr_compare a b).map Int.sign = (mstr_compare b a).map (fun r => - Int.sign r) ∧
    ((∀ x ∈ a, x.buffer.Terminated) → (∀ x ∈ b, x.buffer.Terminated) →
      ∃ r, mstr_compare a b = some r) := by
  cases a with
  | none => cases b <;> exact ⟨by simp [mstr_compare], fun _ _ => ⟨0, by simp [mstr_compare]⟩⟩
  | some a =>
    cases b with
    | none => exact ⟨by simp [mstr_compare], fun _ _ => ⟨0, by simp [mstr_compare]⟩⟩
    | some b =>
      obtain ⟨pa, sza, ca⟩ := a
      obtain ⟨pb, szb, cb⟩ := b
      cases pa <;> cases pb <;>
        simp only [mstr_compare, CharPtr.strcmp, Option.map_none', Option.mem_def,
          Option.some.injEq, forall_eq', CharPtr.Terminated, true_and, false_implies,
          implies_true, and_true]
      next aa as ab bs =>
        exact ⟨strcmp_swap as bs, fun h1 h2 => strcmp_defined as bs h1 h2⟩

/-- Witness of C6 at the buffers holding `"a"` and `"b"`. -/
theorem mstr_compare_antisymm_witness :
    (∀ x ∈ (some { buffer := .live 1 [97, 0], size := 1, capacity := 2 } : mstring),
      x.buffer.Terminated) ∧
    (∀ x ∈ (some { buffer := .live 2 [98, 0], size := 1, capacity := 2 } : mstring),
      x.buffer.Terminated) ∧
    ∃ r, mstr_compare (some { buffer := .live 1 [97, 0], size := 1, capacity := 2 })
      (some { buffer := .live 2 [98, 0], size := 1, capacity := 2 }) = some r :=
  ⟨by simp [CharPtr.Terminated], by simp [CharPtr.Terminated],
    (mstr_compare_antisymm _ _).2 (by simp [CharPtr.Terminated]) (by simp [CharPtr.Terminated])⟩

/-! ## Reallocation -/

theorem reallocate_fail (arch : Arch) (str : mstring_t) (n : Nat)
    (hd : ∀ a, str.buffer ≠ .dangling a) : reallocate arch str n .fail = some str := by
  obtain ⟨p, sz, cap⟩ := str
  cases p with
  | null => simp [reallocate, realloc, malloc, error_handler]
  | live a old => simp [reallocate, realloc, error_handler]
  | dangling a => exact absurd rfl (hd a)

/-- A successful `reallocate` replaces the storage by an object of `new_size n`
bytes that keeps the old bytes up to the smaller of the two lengths, and leaves
the fields `size` and `capacity` as they were. -/
theorem reallocate_block (arch : Arch) (str : mstring_t) (n addr : Nat) (fill : Nat → Byte)
    (hd : ∀ a, str.buffer ≠ .dangling a) :
    ∃ bytes, reallocate arch str n (.block addr fill) =
        some { str with buffer := .live addr bytes } ∧
      bytes.length = new_size arch n ∧
      ∀ i, i < new_size arch n → i < str.buffer.addressable →
        bytes[i]? = str.buffer.read i ∧ (bytes[i]?).isSome = true := by
  obtain ⟨p, sz, cap⟩ := str
  cases p with
  | null =>
    refine ⟨(List.range (new_size arch n)).map fill, ?_, by simp, ?_⟩
    · simp [reallocate, realloc, malloc, error_handler, sizeof_char]
    · intro i _ hi
      simp [CharPtr.addressable] at hi
  | live a old =>
    refine ⟨old.take (new_size arch n) ++
      (List.range (new_size arch n - old.length)).map (fun i => fill (old.length + i)), ?_, ?_, ?_⟩
    · simp [reallocate, realloc, error_handler, sizeof_char]
    · simp only [List.length_append, List.length_take, List.length_map, List.length_range]
      omega
    · intro i hi1 hi2
      simp only [CharPtr.addressable] at hi2
      have hlen : i < (old.take (new_size arch n)).length := by
        rw [List.length_take]; omega
      rw [List.getElem?_append_left hlen, List.getElem?_take_of_lt hi1]
      simp only [CharPtr.read, true_and]
      rw [List.getElem?_eq_getElem hi2]
      rfl
  | dangling a => exact absurd rfl (hd a)

/-- C7. If the allocation attempted by `reallocate str n` fails, the buffer is
left unchanged: its storage (pointer and bytes), size and capacity are those
before the call. The pointer must not already refer to a deallocated object, on
which `realloc` is undefined. -/
theorem reallocate_fail_unchanged (arch : Arch) (str : mstring_t) (n : Nat)
    (hd : ∀ a, str.buffer ≠ .dangling a) :
    ∃ str', reallocate arch str n .fail = some str' ∧ str'.buffer = str.buffer ∧
      str'.size = str.size ∧ str'.capacity = str.capacity :=
  ⟨str, reallocate_fail arch str n hd, rfl, rfl, rfl⟩

/-- Witness of C7 at the buffer holding `"hi"` and a request of 100 bytes. -/
theorem reallocate_fail_unchanged_witness :
    (∀ a, (CharPtr.live 1 [104, 105, 0]) ≠ .dangling a) ∧
    ∃ str', reallocate .ARCH_BITS_64
        { buffer := .live 1 [104, 105, 0], size := 2, capacity := 3 } 100 .fail = some str' ∧
      str'.buffer = .live 1 [104, 105, 0] ∧ str'.size = 2 ∧ str'.capacity = 3 :=
  ⟨(by intro a h; cases h),
    reallocate_fail_unchanged .ARCH_BITS_64
      { buffer := .live 1 [104, 105, 0], size := 2, capacity := 3 } 100
      (by intro a h; cases h)⟩

/-- C8 fails: a successful `reallocate` of a fresh buffer (capacity 1) with a
request of 5 bytes installs a storage of 8 bytes and leaves the capacity field
at 1, which is below 5. -/
theorem reallocate_capacity_field_stale :
    reallocate .ARCH_BITS_64 { buffer := .live 1 [0], size := 0, capacity := 1 } 5
        (.block 2 (fun _ => 0)) =
      some { buffer := .live 2 [0, 0, 0, 0, 0, 0, 0, 0], size := 0, capacity := 1 } ∧
    ¬ (5 ≤ ({ buffer := .live 2 [0, 0, 0, 0, 0, 0, 0, 0], size := 0, capacity := 1 } :
      mstring_t).capacity) := by
  decide

/-- C8, amended. After a successful `reallocate str n` with `1 ≤ n ≤ 2 ^ 63` on
a 64-bit build, the allocated storage of the buffer is `new_size n` bytes long,
a power of two that is at least `n`; the capacity field keeps its old value. -/
theorem reallocate_storage_power_of_two (str : mstring_t) (n addr : Nat) (fill : Nat → Byte)
    (h1 : 1 ≤ n) (h2 : n ≤ 2 ^ 63) (hd : ∀ a, str.buffer ≠ .dangling a) :
    ∃ str', reallocate .ARCH_BITS_64 str n (.block addr fill) = some str' ∧
      str'.buffer.addressable = new_size .ARCH_BITS_64 n ∧
      (∃ k, str'.buffer.addressable = 2 ^ k) ∧ n ≤ str'.buffer.addressable ∧
      str'.capacity = str.capacity := by
  obtain ⟨bytes, hr, hlen, _⟩ := reallocate_block .ARCH_BITS_64 str n addr fill hd
  obtain ⟨⟨k, hk⟩, hle, _⟩ := new_size_64_isLeast n h1 h2
  refine ⟨_, hr, hlen, ⟨k, ?_⟩, ?_, rfl⟩
  · simp only [CharPtr.addressable]; omega
  · simp only [CharPtr.addressable]; omega

/-- Witness of the amended C8 at a fresh buffer and a request of 5 bytes. -/
theorem reallocate_storage_power_of_two_witness :
    (1 ≤ 5 ∧ 5 ≤ 2 ^ 63 ∧ ∀ a, (CharPtr.live 1 [0]) ≠ .dangling a) ∧
    ∃ str', reallocate .ARCH_BITS_64 { buffer := .live 1 [0], size := 0, capacity := 1 } 5
        (.block 2 (fun _ => 0)) = some str' ∧
      str'.buffer.addressable = new_size .ARCH_BITS_64 5 ∧
      (∃ k, str'.buffer.addressable = 2 ^ k) ∧ 5 ≤ str'.buffer.addressable ∧
      str'.capacity = 1 :=
  ⟨⟨by decide, by decide, (by intro a h; cases h)⟩,
    reallocate_storage_power_of_two { buffer := .live 1 [0], size := 0, capacity := 1 } 5 2
      (fun _ => 0) (by decide) (by decide) (by intro a h; cases h)⟩

/-- C9 fails: on the buffer holding `"abc"` in a storage of 8 bytes (capacity
8), a successful `reallocate` with a request of 2 bytes leaves a storage of 2
bytes, smaller than before and smaller than the capacity field. -/
theorem reallocate_shrinks_storage :
    reallocate .ARCH_BITS_64
        { buffer := .live 1 [97, 98, 99, 0, 0, 0, 0, 0], size := 3, capacity := 8 } 2
        (.block 1 (fun _ => 0)) =
      some { buffer := .live 1 [97, 98], size := 3, capacity := 8 } ∧
    8 ≤ (CharPtr.live 1 [97, 98, 99, 0, 0, 0, 0, 0]).addressable ∧
    (CharPtr.live 1 [97, 98]).addressable <
      (CharPtr.live 1 [97, 98, 99, 0, 0, 0, 0, 0]).addressable ∧
    (CharPtr.live 1 [97, 98]).addressable < 8 := by
  decide

/-- C9, amended. For every buffer whose storage holds at least `capacity` bytes
and every `n` such that `new_size n` is at least the current length of the
storage, after `reallocate str n`, whatever the allocator answers, the storage
is at least as large as before and still holds at least `capacity` bytes. -/
theorem reallocate_storage_not_smaller (arch : Arch) (str : mstring_t) (n : Nat)
    (ans : AllocAnswer) (hd : ∀ a, str.buffer ≠ .dangling a)
    (hcap : str.capacity ≤ str.buffer.addressable)
    (hn : str.buffer.addressable ≤ new_size arch n) :
    ∃ str', reallocate arch str n ans = some str' ∧
      str.buffer.addressable ≤ str'.buffer.addressable ∧
      str'.capacity ≤ str'.buffer.addressable := by
  cases ans with
  | fail => exact ⟨str, reallocate_fail arch str n hd, le_refl _, hcap⟩
  | block addr fill =>
    obtain ⟨bytes, hr, hlen, _⟩ := reallocate_block arch str n addr fill hd
    refine ⟨_, hr, ?_, ?_⟩
    · show str.buffer.addressable ≤ bytes.length
      omega
    · show str.capacity ≤ bytes.length
      omega
  | zeroFreed =>
    obtain ⟨p, sz, cap⟩ := str
    cases p with
    | null =>
      exact ⟨⟨.null, sz, cap⟩, by simp [reallocate, realloc, malloc, error_handler],
        le_refl _, hcap⟩
    | dangling a => exact absurd rfl (hd a)
    | live a old =>
      simp only [CharPtr.addressable] at hcap hn
      by_cases h0 : new_size arch n = 0
      · refine ⟨⟨.dangling a, sz, cap⟩,
          by simp [reallocate, realloc, error_handler, sizeof_char, h0], ?_, ?_⟩
        · simp only [CharPtr.addressable]; omega
        · simp only [CharPtr.addressable]; omega
      · exact ⟨⟨.live a old, sz, cap⟩,
          by simp [reallocate, realloc, error_handler, sizeof_char, h0], le_refl _, hcap⟩

/-- Witness of the amended C9 at the buffer holding `"hi"` in 4 bytes and a
request of 9 bytes. -/
theorem reallocate_storage_not_smaller_witness :
    ((∀ a, (CharPtr.live 1 [104, 105, 0, 0]) ≠ .dangling a) ∧
      4 ≤ (CharPtr.live 1 [104, 105, 0, 0]).addressable ∧
      (CharPtr.live 1 [104, 105, 0, 0]).addressable ≤ new_size .ARCH_BITS_64 9) ∧
    ∃ str', reallocate .ARCH_BITS_64
        { buffer := .live 1 [104, 105, 0, 0], size := 2, capacity := 4 } 9
        (.block 2 (fun _ => 0)) = some str' ∧
      (CharPtr.live 1 [104, 105, 0, 0]).addressable ≤ str'.buffer.addressable ∧
      str'.capacity ≤ str'.buffer.addressable :=
  ⟨⟨(by intro a h; cases h), (by decide), (by decide)⟩,
    reallocate_storage_not_smaller .ARCH_BITS_64
      { buffer := .live 1 [104, 105, 0, 0], size := 2, capacity := 4 } 9
      (.block 2 (fun _ => 0)) (by intro a h; cases h) (by decide) (by decide)⟩

/-- C10 fails: on the buffer holding `"hi"` (size 2), a successful `reallocate`
with a request of 1 byte leaves a storage of 1 byte, in which the byte at offset
1, below the size, is no longer present. -/
theorem reallocate_drops_bytes :
    reallocate .ARCH_BITS_64
        { buffer := .live 1 [104, 105, 0, 0], size := 2, capacity := 4 } 1
        (.block 2 (fun _ => 0)) =
      some { buffer := .live 2 [104], size := 2, capacity := 4 } ∧
    (CharPtr.live 1 [104, 105, 0, 0]).read 1 = some 105 ∧
    (CharPtr.live 2 [104]).read 1 = none := by
  decide

/-- C10, amended. After a successful `reallocate str n` on a buffer whose storage
holds its `size` bytes, the byte at every offset `i < size` that is also below
`new_size n` is present in the storage and equal to the byte that was there
before the call; the size is unchanged. -/
theorem reallocate_preserves_bytes (arch : Arch) (str : mstring_t) (n addr : Nat)
    (fill : Nat → Byte) (hd : ∀ a, str.buffer ≠ .dangling a)
    (hsz : str.size ≤ str.buffer.addressable) :
    ∃ str', reallocate arch str n (.block addr fill) = some str' ∧ str'.size = str.size ∧
      ∀ i, i < str.size → i < new_size arch n →
        str'.buffer.read i = str.buffer.read i ∧ (str'.buffer.read i).isSome = true := by
  obtain ⟨bytes, hr, _, hb⟩ := reallocate_block arch str n addr fill hd
  refine ⟨_, hr, rfl, ?_⟩
  intro i hi1 hi2
  exact hb i hi2 (by omega)

/-- Witness of the amended C10 at the buffer holding `"hi"` and a request of 9
bytes. -/
theorem reallocate_preserves_bytes_witness :
    ((∀ a, (CharPtr.live 1 [104, 105, 0, 0]) ≠ .dangling a) ∧
      2 ≤ (CharPtr.live 1 [104, 105, 0, 0]).addressable) ∧
    ∃ str', reallocate .ARCH_BITS_64
        { buffer := .live 1 [104, 105, 0, 0], size := 2, capacity := 4 } 9
        (.block 2 (fun _ => 0)) = some str' ∧ str'.size = 2 ∧
      ∀ i, i < 2 → i < new_size .ARCH_BITS_64 9 →
        str'.buffer.read i = (CharPtr.live 1 [104, 105, 0, 0]).read i ∧
        (str'.buffer.read i).isSome = true :=
  ⟨⟨(by intro a h; cases h), (by decide)⟩,
    reallocate_preserves_bytes .ARCH_BITS_64
      { buffer := .live 1 [104, 105, 0, 0], size := 2, capacity := 4 } 9 2
      (fun _ => 0) (by intro a h; cases h) (by decide)⟩

/-! ## Allocation failure in the constructors -/

/-- C11. `mstr_construct` returns the null handle exactly when one of its two
allocations (the handle or the storage) returns `NULL`, and so does
`mstr_construct_init` on an array that holds a zero byte; hence whenever both
allocations succeed the result is a non-null buffer. -/
theorem construct_null_iff_alloc_fails (arch : Arch) (hAns bAns : AllocAnswer)
    (init : List Byte) (k : Nat) (hk : strlen init = some k) :
    (mstr_construct arch hAns bAns = none ↔
      malloc (sizeof_mstring_t arch) hAns = .null ∨
        malloc (sizeof_char * INITIAL_CAPACITY) bAns = .null) ∧
    (∃ r, mstr_construct_init arch hAns bAns init = some r ∧
      (r = none ↔
        malloc (sizeof_mstring_t arch) hAns = .null ∨
          malloc (sizeof_char * (k + 1)) bAns = .null)) := by
  have hlen := strlen_lt_length hk
  constructor
  · cases hAns <;> cases bAns <;> simp [mstr_construct, malloc]
  · cases hAns with
    | fail => exact ⟨none, by simp [mstr_construct_init, malloc], by simp [malloc]⟩
    | zeroFreed => exact ⟨none, by simp [mstr_construct_init, malloc], by simp [malloc]⟩
    | block ha hf =>
      cases bAns with
      | fail => exact ⟨none, by simp [mstr_construct_init, malloc, hk], by simp [malloc]⟩
      | zeroFreed => exact ⟨none, by simp [mstr_construct_init, malloc, hk], by simp [malloc]⟩
      | block ba bf =>
        exact ⟨_, mstr_construct_init_eq arch ha ba hf bf init k hk, by simp [malloc]⟩

/-- Witness of C11 at the array `"hi"` with a failing storage allocation. -/
theorem construct_null_iff_alloc_fails_witness :
    strlen [104, 105, 0] = some 2 ∧
    (∃ r, mstr_construct_init .ARCH_BITS_64 (.block 1 (fun _ => 0)) .fail [104, 105, 0] =
        some r ∧
      (r = none ↔
        malloc (sizeof_mstring_t .ARCH_BITS_64) (.block 1 (fun _ => 0)) = .null ∨
          malloc (sizeof_char * (2 + 1)) .fail = .null)) :=
  ⟨by simp [strlen],
    (construct_null_iff_alloc_fails .ARCH_BITS_64 (.block 1 (fun _ => 0)) .fail [104, 105, 0] 2
      (by simp [strlen])).2⟩

/-! ## Zero-sized requests -/

/-- C12. The code at the request 0 on a 64-bit build: the decrement wraps to
`SIZE_MAX`, the smearing leaves every bit set and the increment wraps back, so
`new_size 0` is 0 and not 1; `reallocate` then asks `realloc` for zero bytes. -/
theorem new_size_zero_not_one :
    (0 + Arch.ARCH_BITS_64.modulus - 1) % Arch.ARCH_BITS_64.modulus = 2 ^ 64 - 1 ∧
    new_size .ARCH_BITS_64 0 = 0 ∧ new_size .ARCH_BITS_64 0 ≠ 1 ∧
    reallocate .ARCH_BITS_64 { buffer := .live 1 [0], size := 0, capacity := 1 } 0
        (.block 2 (fun _ => 0)) =
      some { buffer := .live 2 [], size := 0, capacity := 1 } := by
  decide

/-- For every width of `size_t` the request 0 wraps around to the result 0, and
the least request, 1, gives 1. -/
theorem new_size_zero_wraps (arch : Arch) :
    (0 + arch.modulus - 1) % arch.modulus = arch.modulus - 1 ∧
      new_size arch 0 = 0 ∧ new_size arch 1 = 1 := by
  cases arch <;> decide

theorem new_size_64_eq_zero_iff (n : Nat) (hn : n < 2 ^ 64) :
    new_size .ARCH_BITS_64 n = 0 ↔ n = 0 ∨ 2 ^ 63 < n := by
  by_cases h0 : n = 0
  · subst h0
    simp only [true_or, iff_true]
    decide
  · have hm : (n + 2 ^ 64 - 1) % 2 ^ 64 = n - 1 := by
      have e : n + 2 ^ 64 - 1 = (n - 1) + 2 ^ 64 := by omega
      rw [e, Nat.add_mod_right, Nat.mod_eq_of_lt (by omega)]
    rw [new_size_64_eq, hm]
    split
    · next h1 =>
      constructor
      · intro h; omega
      · intro h; omega
    · next h1 =>
      have hlt : n - 1 < 2 ^ 64 := by omega
      have hlog : (n - 1).log2 < 64 := (Nat.log2_lt h1).2 hlt
      by_cases hbig : n - 1 < 2 ^ 63
      · have hl : (n - 1).log2 < 63 := (Nat.log2_lt h1).2 hbig
        have hle : 2 ^ ((n - 1).log2 + 1) ≤ 2 ^ 63 :=
          Nat.pow_le_pow_right (by decide) (by omega)
        have hpos : 0 < 2 ^ ((n - 1).log2 + 1) := by positivity
        rw [Nat.mod_eq_of_lt (by omega)]
        constructor
        · intro h; omega
        · intro h; omega
      · have hl : ¬ (n - 1).log2 < 63 := fun h => hbig ((Nat.log2_lt h1).1 h)
        have he : (n - 1).log2 + 1 = 64 := by omega
        rw [he, Nat.mod_self]
        constructor
        · intro _; right; omega
        · intro _; rfl

/-- C15. With 64-bit wrapping arithmetic and `n` a `size_t` value, `new_size n`
is 0 exactly when `n = 0` or `n > 2 ^ 63`; for those `n`, `reallocate` calls
`realloc` with a size of zero bytes. -/
theorem new_size_zero_iff (n : Nat) (hn : n < 2 ^ 64) :
    (new_size .ARCH_BITS_64 n = 0 ↔ n = 0 ∨ 2 ^ 63 < n) ∧
    ((n = 0 ∨ 2 ^ 63 < n) → ∀ (str : mstring_t) (ans : AllocAnswer),
      reallocate .ARCH_BITS_64 str n ans =
        match realloc str.buffer 0 ans with
        | none => none
        | some (tmp, old) =>
          if tmp ≠ .null then some { str with buffer := tmp }
          else some { str with buffer := old }) := by
  refine ⟨new_size_64_eq_zero_iff n hn, ?_⟩
  intro h str ans
  have h0 : new_size .ARCH_BITS_64 n = 0 := (new_size_64_eq_zero_iff n hn).2 h
  simp only [reallocate, h0, sizeof_char, Nat.mul_zero, error_handler]

/-- Witness of C15 at `n = 2 ^ 63 + 1`. -/
theorem new_size_zero_iff_witness :
    2 ^ 63 + 1 < 2 ^ 64 ∧
    (new_size .ARCH_BITS_64 (2 ^ 63 + 1) = 0 ↔ 2 ^ 63 + 1 = 0 ∨ 2 ^ 63 < 2 ^ 63 + 1) :=
  ⟨by decide, (new_size_zero_iff (2 ^ 63 + 1) (by decide)).1⟩

/-! ## Null handles in the comparison -/

/-- C13. For every handle `x`, null or not and whatever the state of its
storage, `mstr_compare NULL x` and `mstr_compare x NULL` are 0. -/
theorem mstr_compare_null (x : mstring) :
    mstr_compare none x = some 0 ∧ mstr_compare x none = some 0 := by
  cases x <;> simp [mstr_compare]

/-! ## Frame of `reallocate` -/

/-- C14. `reallocate str n` leaves the fields `size` and `capacity` as they were,
whatever the allocator answers; when the allocation succeeds the storage becomes
an object of exactly `new_size n` bytes whose bytes below both the old length of
the storage and `new_size n` are the old ones. -/
theorem reallocate_frame (arch : Arch) (str : mstring_t) (n : Nat)
    (hd : ∀ a, str.buffer ≠ .dangling a) :
    (∀ ans, ∃ str', reallocate arch str n ans = some str' ∧
      str'.size = str.size ∧ str'.capacity = str.capacity) ∧
    (∀ addr fill, ∃ bytes, reallocate arch str n (.block addr fill) =
        some { buffer := .live addr bytes, size := str.size, capacity := str.capacity } ∧
      bytes.length = new_size arch n ∧
      ∀ i, i < min str.buffer.addressable (new_size arch n) →
        bytes[i]? = str.buffer.read i ∧ (bytes[i]?).isSome = true) := by
  constructor
  · intro ans
    cases ans with
    | fail => exact ⟨str, reallocate_fail arch str n hd, rfl, rfl⟩
    | block addr fill =>
      obtain ⟨bytes, hr, _⟩ := reallocate_block arch str n addr fill hd
      exact ⟨_, hr, rfl, rfl⟩
    | zeroFreed =>
      obtain ⟨p, sz, cap⟩ := str
      cases p with
      | null =>
        exact ⟨⟨.null, sz, cap⟩, by simp [reallocate, realloc, malloc, error_handler], rfl, rfl⟩
      | dangling a => exact absurd rfl (hd a)
      | live a old =>
        by_cases h0 : new_size arch n = 0
        · exact ⟨⟨.dangling a, sz, cap⟩,
            by simp [reallocate, realloc, error_handler, sizeof_char, h0], rfl, rfl⟩
        · exact ⟨⟨.live a old, sz, cap⟩,
            by simp [reallocate, realloc, error_handler, sizeof_char, h0], rfl, rfl⟩
  · intro addr fill
    obtain ⟨bytes, hr, hlen, hb⟩ := reallocate_block arch str n addr fill hd
    refine ⟨bytes, hr, hlen, ?_⟩
    intro i hi
    exact hb i (by omega) (by omega)

/-- Witness of C14 at the buffer holding `"hi"` and a request of 2 bytes. -/
theorem reallocate_frame_witness :
    (∀ a, (CharPtr.live 1 [104, 105, 0, 0]) ≠ .dangling a) ∧
    ∃ bytes, reallocate .ARCH_BITS_64
        { buffer := .live 1 [104, 105, 0, 0], size := 2, capacity := 4 } 2
        (.block 2 (fun _ => 0)) =
        some { buffer := .live 2 bytes, size := 2, capacity := 4 } ∧
      bytes.length = new_size .ARCH_BITS_64 2 ∧
      ∀ i, i < min (CharPtr.live 1 [104, 105, 0, 0]).addressable (new_size .ARCH_BITS_64 2) →
        bytes[i]? = (CharPtr.live 1 [104, 105, 0, 0]).read i ∧ (bytes[i]?).isSome = true :=
  ⟨(by intro a h; cases h),
    (reallocate_frame .ARCH_BITS_64
      { buffer := .live 1 [104, 105, 0, 0], size := 2, capacity := 4 } 2
      (by intro a h; cases h)).2 2 (fun _ => 0)⟩

/-! ## Construction from an array with trailing bytes -/

theorem strlen_of_first_zero (init : List Byte) (k : Nat) (h0 : init[k]? = some 0)
    (hz : ∀ i, i < k → init[i]? ≠ some 0) : strlen init = some k := by
  obtain ⟨hzf, he, hl⟩ := split_at_terminator init k h0 hz
  have h := strlen_append_zero hzf (init.drop (k + 1))
  rw [← he, hl] at h
  exact h

theorem take_succ_of_zero (init : List Byte) (k : Nat) (h0 : init[k]? = some 0) :
    init.take (k + 1) = init.take k ++ [0] := by
  rw [List.take_succ, h0]
  rfl

/-- C16. With both allocations succeeding, for every input array whose first
zero byte is at index `k`, `mstr_construct_init` returns the buffer of size `k`
and capacity `k + 1` whose storage is the first `k` input bytes followed by 0;
the result is the same for every array with the same first `k + 1` bytes. -/
theorem mstr_construct_init_strlen (arch : Arch) (ha ba : Nat) (hf bf : Nat → Byte)
    (init : List Byte) (k : Nat) (h0 : init[k]? = some 0)
    (hz : ∀ i, i < k → init[i]? ≠ some 0) :
    mstr_construct_init arch (.block ha hf) (.block ba bf) init =
      some (some { buffer := .live ba (init.take k ++ [0]), size := k, capacity := k + 1 }) ∧
    ∀ other : List Byte, other.take (k + 1) = init.take (k + 1) →
      mstr_construct_init arch (.block ha hf) (.block ba bf) other =
        mstr_construct_init arch (.block ha hf) (.block ba bf) init := by
  have hinit := mstr_construct_init_eq arch ha ba hf bf init k (strlen_of_first_zero init k h0 hz)
  constructor
  · rw [hinit, take_succ_of_zero init k h0]
  · intro other ho
    have hread : ∀ i, i < k + 1 → other[i]? = init[i]? := by
      intro i hi
      have e1 : (other.take (k + 1))[i]? = other[i]? := List.getElem?_take_of_lt hi
      have e2 : (init.take (k + 1))[i]? = init[i]? := List.getElem?_take_of_lt hi
      rw [← e1, ← e2, ho]
    have h0o : other[k]? = some 0 := by rw [hread k (by omega)]; exact h0
    have hzo : ∀ i, i < k → other[i]? ≠ some 0 := by
      intro i hi
      rw [hread i (by omega)]
      exact hz i hi
    rw [mstr_construct_init_eq arch ha ba hf bf other k (strlen_of_first_zero other k h0o hzo),
      hinit, ho]

/-- Witness of C16 at the array `[104, 105, 0, 33, 0]`, whose first zero byte is
at index 2. -/
theorem mstr_construct_init_strlen_witness :
    (([104, 105, 0, 33, 0] : List Byte)[2]? = some 0 ∧
      ∀ i, i < 2 → ([104, 105, 0, 33, 0] : List Byte)[i]? ≠ some 0) ∧
    mstr_construct_init .ARCH_BITS_64 (.block 1 (fun _ => 0)) (.block 2 (fun _ => 0))
        [104, 105, 0, 33, 0] =
      some (some
        { buffer := .live 2 (([104, 105, 0, 33, 0] : List Byte).take 2 ++ [0]),
          size := 2, capacity := 2 + 1 }) :=
  ⟨⟨rfl, (by intro i hi; interval_cases i <;> simp)⟩,
    (mstr_construct_init_strlen .ARCH_BITS_64 1 2 (fun _ => 0) (fun _ => 0)
      [104, 105, 0, 33, 0] 2 rfl (by intro i hi; interval_cases i <;> simp)).1⟩

/-! ## The relation `mstr_compare x y == 0` -/

theorem strcmp_self (l : List Byte) (h : (0 : Byte) ∈ l) : strcmp l l = some 0 := by
  induction l with
  | nil => simp at h
  | cons a l ih =>
    by_cases ha : a = 0
    · simp [strcmp, ha]
    · have ha0 : ¬ (0 : Byte) = a := fun e => ha e.symm
      have hl : (0 : Byte) ∈ l := by simpa [ha0] using h
      simpa [strcmp, ha] using ih hl

theorem strcmp_zero_cons {a b : Byte} {l r : List Byte}
    (h : strcmp (a :: l) (b :: r) = some 0) : a = b ∧ (a = 0 ∨ strcmp l r = some 0) := by
  by_cases hab : a = b
  · subst hab
    refine ⟨rfl, ?_⟩
    by_cases ha : a = 0
    · exact Or.inl ha
    · right
      simpa [strcmp, ha] using h
  · exfalso
    have hv : a.val ≠ b.val := fun e => hab (Fin.ext e)
    simp only [strcmp, hab, if_false, Option.some.injEq] at h
    omega

theorem strcmp_zero_symm (l : List Byte) : ∀ r : List Byte,
    strcmp l r = some 0 → strcmp r l = some 0 := by
  induction l with
  | nil => intro r h; cases r <;> simp [strcmp] at h
  | cons a l ih =>
    intro r h
    cases r with
    | nil => simp [strcmp] at h
    | cons b r =>
      obtain ⟨hab, h1⟩ := strcmp_zero_cons h
      subst hab
      by_cases ha : a = 0
      · simp [strcmp, ha]
      · rcases h1 with h1 | h1
        · exact absurd h1 ha
        · simpa [strcmp, ha] using ih r h1

theorem strcmp_zero_trans (l : List Byte) : ∀ r t : List Byte,
    strcmp l r = some 0 → strcmp r t = some 0 → strcmp l t = some 0 := by
  induction l with
  | nil => intro r t h; cases r <;> simp [strcmp] at h
  | cons a l ih =>
    intro r t h1 h2
    cases r with
    | nil => simp [strcmp] at h1
    | cons b r =>
      cases t with
      | nil => simp [strcmp] at h2
      | cons c t =>
        obtain ⟨hab, k1⟩ := strcmp_zero_cons h1
        obtain ⟨hbc, k2⟩ := strcmp_zero_cons h2
        subst hab
        subst hbc
        by_cases ha : a = 0
        · simp [strcmp, ha]
        · rcases k1 with k1 | k1
          · exact absurd k1 ha
          · rcases k2 with k2 | k2
            · exact absurd k2 ha
            · simpa [strcmp, ha] using ih r t k1 k2

theorem live_of_sentinel (a : mstring_t) (h : a.buffer.read a.size = some 0) :
    ∃ addr bytes, a.buffer = .live addr bytes ∧ (0 : Byte) ∈ bytes := by
  obtain ⟨p, sz, cap⟩ := a
  cases p with
  | null => simp [CharPtr.read] at h
  | dangling _ => simp [CharPtr.read] at h
  | live addr bytes =>
    exact ⟨addr, bytes, rfl, List.mem_iff_getElem?.2 ⟨sz, h⟩⟩

/-- C17. The relation `mstr_compare x y == 0` is not transitive on handles: the
non-null buffers holding `"a"` and `"b"` both compare equal to the null handle
and differ from each other. On non-null buffers whose byte at offset `size` is 0
the relation is reflexive, symmetric and transitive. -/
theorem mstr_compare_zero_relation :
    (∃ a b : mstring_t, a.buffer.read a.size = some 0 ∧ b.buffer.read b.size = some 0 ∧
      mstr_compare (some a) none = some 0 ∧ mstr_compare none (some b) = some 0 ∧
      ∃ r, mstr_compare (some a) (some b) = some r ∧ r ≠ 0) ∧
    (∀ a : mstring_t, a.buffer.read a.size = some 0 →
      mstr_compare (some a) (some a) = some 0) ∧
    (∀ a b : mstring_t, a.buffer.read a.size = some 0 → b.buffer.read b.size = some 0 →
      mstr_compare (some a) (some b) = some 0 → mstr_compare (some b) (some a) = some 0) ∧
    (∀ a b c : mstring_t, a.buffer.read a.size = some 0 → b.buffer.read b.size = some 0 →
      c.buffer.read c.size = some 0 →
      mstr_compare (some a) (some b) = some 0 → mstr_compare (some b) (some c) = some 0 →
      mstr_compare (some a) (some c) = some 0) := by
  refine ⟨?_, ?_, ?_, ?_⟩
  · refine ⟨{ buffer := .live 1 [97, 0], size := 1, capacity := 2 },
      { buffer := .live 2 [98, 0], size := 1, capacity := 2 }, rfl, rfl, rfl, rfl, -1, ?_, ?_⟩
    · decide
    · decide
  · intro a ha
    obtain ⟨pa, as, ea, hza⟩ := live_of_sentinel a ha
    simp only [mstr_compare, ea, CharPtr.strcmp]
    exact strcmp_self as hza
  · intro a b ha hb h
    obtain ⟨pa, as, ea, _⟩ := live_of_sentinel a ha
    obtain ⟨pb, bs, eb, _⟩ := live_of_sentinel b hb
    simp only [mstr_compare, ea, eb, CharPtr.strcmp] at h ⊢
    exact strcmp_zero_symm as bs h
  · intro a b c ha hb hc h1 h2
    obtain ⟨pa, as, ea, _⟩ := live_of_sentinel a ha
    obtain ⟨pb, bs, eb, _⟩ := live_of_sentinel b hb
    obtain ⟨pc, cs, ec, _⟩ := live_of_sentinel c hc
    simp only [mstr_compare, ea, eb, ec, CharPtr.strcmp] at h1 h2 ⊢
    exact strcmp_zero_trans as bs cs h1 h2

/-- Witness of C17: reflexivity at the buffer holding `"hi"`. -/
theorem mstr_compare_zero_relation_witness :
    (CharPtr.live 1 [104, 105, 0]).read 2 = some 0 ∧
    mstr_compare (some { buffer := .live 1 [104, 105, 0], size := 2, capacity := 3 })
      (some { buffer := .live 1 [104, 105, 0], size := 2, capacity := 3 }) = some 0 :=
  ⟨rfl, mstr_compare_zero_relation.2.1
    { buffer := .live 1 [104, 105, 0], size := 2, capacity := 3 } rfl⟩

end MString
